import Mathlib

set_option maxHeartbeats 1000000

/- Verification development for the decision-variable mapping and trajectory
   assembly core of the bioptim repository.  Numeric matrices are modelled
   over the rationals; numpy row indexing, fancy indexing and hstack are
   modelled explicitly.  Fallible code paths return Except values. -/

/-- Index mapping (bioptim/misc/mapping.py, class Mapping).  An entry some k
sources output row i from input row natAbs k, negated when k is negative;
none models the Python None sentinel entry, which leaves the zero fill. -/
structure Mapping where
  map_idx : List (Option ℤ)
deriving DecidableEq

/-- Numpy fancy row indexing obj[idxs, :]: raises an index error as soon as
one requested row is out of range, otherwise returns the selected rows. -/
def gatherRows (obj : List (List ℚ)) (idxs : List Nat) : Except String (List (List ℚ)) :=
  if idxs.all (fun j => decide (j < obj.length)) then
    .ok (idxs.map (fun j => obj.getD j []))
  else
    .error "IndexError: index is out of bounds for axis 0"

/-- Numpy fancy row assignment mapped[positions, :] = rows: successively
writes each row at its position.  Positions beyond the matrix are ignored by
List.set; in Mapping.map every position is in range. -/
def scatterRows (base : List (List ℚ)) (positions : List Nat) (rows : List (List ℚ)) : List (List ℚ) :=
  (positions.zip rows).foldl (fun acc pr => acc.set pr.1 pr.2) base

/-- bioptim/misc/mapping.py, Mapping.map: build a zero matrix with one row
per map_idx entry and the column count of the input, gather the rows for the
non-negative entries and write them at their output positions, then gather
the rows for the negative entries and write their negations. -/
def Mapping.map (self : Mapping) (obj : List (List ℚ)) : Except String (List (List ℚ)) := do
  let ncols := (obj.headD []).length
  let mapped_obj := List.replicate self.map_idx.length (List.replicate ncols (0 : ℚ))
  let index_plus_in_origin := self.map_idx.filterMap
    (fun v => match v with
      | some k => if 0 ≤ k then some k.natAbs else none
      | none => none)
  let index_plus_in_new := self.map_idx.enum.filterMap
    (fun iv => match iv.2 with
      | some k => if 0 ≤ k then some iv.1 else none
      | none => none)
  let plus_rows ← gatherRows obj index_plus_in_origin
  let mapped_obj := scatterRows mapped_obj index_plus_in_new plus_rows
  let index_minus_in_origin := self.map_idx.filterMap
    (fun v => match v with
      | some k => if k < 0 then some k.natAbs else none
      | none => none)
  let index_minus_in_new := self.map_idx.enum.filterMap
    (fun iv => match iv.2 with
      | some k => if k < 0 then some iv.1 else none
      | none => none)
  let minus_rows ← gatherRows obj index_minus_in_origin
  let mapped_obj := scatterRows mapped_obj index_minus_in_new (minus_rows.map (fun r => r.map (fun x => -x)))
  return mapped_obj

/-- Row-wise restatement of the mapping semantics, following the words of
the specification: a sentinel row is all zero, a row with source entry v is
sign v times input row natAbs v, columns passing through unchanged. -/
def mapRowSpec (obj : List (List ℚ)) (ncols : Nat) (v : Option ℤ) : List ℚ :=
  match v with
  | none => List.replicate ncols (0 : ℚ)
  | some k => if k < 0 then (obj.getD k.natAbs []).map (fun x => -x) else obj.getD k.natAbs []

/-- bioptim/misc/mapping.py, class BiMapping: an ordered pair of Mapping
values; raw index sequences are converted to Mapping at construction. -/
structure BiMapping where
  to_second : Mapping
  to_first : Mapping
deriving DecidableEq

/-- Modelled from the spec: class OptionDict (bioptim/misc/options.py) is not
among the sources; per the spec a BiMappingList is an ordered name-keyed
registry of BiMapping entries.  Each entry records the phase argument it was
added with; membership is by name. -/
structure BiMappingList where
  options : List (String × Nat × BiMapping)
deriving DecidableEq

/-- Membership test used by BiMappingList.add: is a name already registered. -/
def BiMappingList.containsName (self : BiMappingList) (name : String) : Bool :=
  self.options.any (fun e => e.1 = name)

/-- bioptim/misc/mapping.py, BiMappingList.add: reject a duplicate name;
with an explicit BiMapping argument reject simultaneous raw mappings and
recurse on its two components; otherwise require both raw mappings and
append the new entry. -/
def BiMappingList.add (self : BiMappingList) (name : String)
    (to_second to_first : Option Mapping) (bimapping : Option BiMapping)
    (phase : Nat) : Except String BiMappingList :=
  if self.containsName name then .error "BiMapping name should be unique"
  else
    match bimapping with
    | some bm =>
      if to_second.isSome || to_first.isSome then
        .error "BiMappingList should either be a to_second/to_first or an actual BiMapping"
      else
        self.add name (some bm.to_second) (some bm.to_first) none phase
    | none =>
      match to_second, to_first with
      | some ts, some tf =>
        .ok { options := self.options ++ [(name, phase, BiMapping.mk ts tf)] }
      | _, _ => .error "BiMappingList should either be a to_second/to_first or an actual BiMapping"
termination_by (match bimapping with | some _ => 1 | none => 0)
decreasing_by simp

/-- Python sequence indexing for name lists: a negative index counts from
the end; out-of-range lookups yield a default name. -/
def py_string_at (l : List String) (k : ℤ) : String :=
  if 0 ≤ k then l.getD k.toNat "" else l.getD (l.length - (-k).toNat) ""

/-- Symbol name for one placeholder element, from the quantity tag and the
degree-of-freedom name selected by a mapping entry. -/
def dof_sym (tag : String) (dof_names : List String) (v : Option ℤ) : String :=
  match v with
  | some k => tag ++ py_string_at dof_names k
  | none => tag

/-- A configured state quantity: the reduced-space placeholder names built
with nlp.cx and the full-space placeholder names built with MX. -/
structure ConfiguredVar where
  cx_names : List String
  mx_names : List String
deriving DecidableEq

/-- bioptim/dynamics/problem.py, Problem.configure_q: the reduced placeholder
gets one symbol per entry of the q to_first mapping, named by the entry; the
full placeholder gets one symbol per entry of the q to_second mapping, named
by the enumeration index. -/
def configure_q (mapping_q : BiMapping) (dof_names : List String) : ConfiguredVar :=
  { cx_names := mapping_q.to_first.map_idx.map (dof_sym "Q_" dof_names),
    mx_names := (List.range mapping_q.to_second.map_idx.length).map
      (fun i => "Q_" ++ dof_names.getD i "") }

/-- bioptim/dynamics/problem.py, Problem.configure_qdot: same structure as
configure_q with the qdot mapping. -/
def configure_qdot (mapping_qdot : BiMapping) (dof_names : List String) : ConfiguredVar :=
  { cx_names := mapping_qdot.to_first.map_idx.map (dof_sym "Qdot_" dof_names),
    mx_names := (List.range mapping_qdot.to_second.map_idx.length).map
      (fun i => "Qdot_" ++ dof_names.getD i "") }

/-- A configured control quantity: one reduced-space column of placeholder
names per control-type column, and the full-space placeholder names. -/
structure ConfiguredCtrl where
  all_cx_names : List (List String)
  mx_names : List String
deriving DecidableEq

/-- bioptim/dynamics/problem.py, Problem.configure_tau: n_col reduced
columns, each with one symbol per entry of the tau to_first mapping, and a
full placeholder with one symbol per entry of the tau to_second mapping. -/
def configure_tau (mapping_tau : BiMapping) (dof_names : List String) (n_col : Nat) : ConfiguredCtrl :=
  { all_cx_names := (List.range n_col).map
      (fun j => mapping_tau.to_first.map_idx.map
        (fun v => dof_sym "Tau_" dof_names v ++ "_" ++ toString j)),
    mx_names := (List.range mapping_tau.to_second.map_idx.length).map
      (fun i => "Tau_" ++ dof_names.getD i "") }

/-- bioptim/dynamics/problem.py, Problem.configure_taudot: the reduced
columns use the taudot to_first mapping, but the loop building the full
placeholder (source line 538) enumerates the to_second mapping of the q
quantity, not of taudot. -/
def configure_taudot (mapping_q mapping_taudot : BiMapping) (dof_names : List String) (n_col : Nat) : ConfiguredCtrl :=
  { all_cx_names := (List.range n_col).map
      (fun j => mapping_taudot.to_first.map_idx.map
        (fun v => dof_sym "Taudot_" dof_names v ++ "_" ++ toString j)),
    mx_names := (List.range mapping_q.to_second.map_idx.length).map
      (fun i => "Taudot_" ++ dof_names.getD i "") }

/-- The value returned by a user derivative function, modelled at the level
of symbolic expression widths: one expression, or a sequence of expressions
to be vertically concatenated. -/
inductive DynExpr where
  | single (width : Nat)
  | seq (widths : List Nat)
deriving DecidableEq

/-- Width of the vertical concatenation of a derivative-function result. -/
def vertcat_width : DynExpr → Nat
  | .single w => w
  | .seq ws => ws.sum

/-- A compiled casadi Function, modelled by its name, named inputs and
outputs, and their widths. -/
structure CasadiFunction where
  name : String
  input_names : List String
  output_names : List String
  input_widths : List Nat
  output_width : Nat
deriving DecidableEq

/-- bioptim/dynamics/problem.py, Problem.configure_dynamics_function: build
placeholders x, u, p at the declared state, control and parameter widths,
invoke the derivative function on them, vertically concatenate a list or
tuple result, and compile a Function named ForwardDyn whose single output
xdot is the returned expression.  The source contains no comparison between
the width of that expression and the declared state width. -/
def configure_dynamics_function (n_states n_controls n_params : Nat)
    (dyn_func : Nat → Nat → Nat → DynExpr) : CasadiFunction :=
  let dynamics := dyn_func n_states n_controls n_params
  { name := "ForwardDyn",
    input_names := ["x", "u", "p"],
    output_names := ["xdot"],
    input_widths := [n_states, n_controls, n_params],
    output_width := vertcat_width dynamics }

/-- A numpy array of the dimensions that occur in trajectory assembly: a 1-D
vector of samples or a 2-D matrix. -/
inductive NpArr where
  | one (xs : List ℚ)
  | two (rows : List (List ℚ))
deriving DecidableEq

/-- A value returned by concatenate_optimization_variables: the Python None
fall-through, a numpy array, or the list built when merge_phases is false. -/
inductive PyRes where
  | pynone
  | arr (a : NpArr)
  | rlist (xs : List PyRes)

/-- The argument of concatenate_optimization_variables: a Python list of
arrays, or a numpy array (as passed by the inner recursive call). -/
inductive PyVar where
  | pylist (l : List NpArr)
  | nparr (a : NpArr)

/-- Effectful list map over Except, modelling a Python list comprehension
that may raise. -/
def mapME (f : α → Except String β) : List α → Except String (List β)
  | [] => .ok []
  | a :: l =>
    match f a with
    | .error e => .error e
    | .ok b =>
      match mapME f l with
      | .error e => .error e
      | .ok bs => .ok (b :: bs)

/-- All elements that are 1-D arrays, or none. -/
def onesOf : List NpArr → Option (List (List ℚ))
  | [] => some []
  | .one xs :: rest => (onesOf rest).map (fun t => xs :: t)
  | .two _ :: _ => none

/-- All elements that are 2-D arrays, or none. -/
def twosOf : List NpArr → Option (List (List (List ℚ)))
  | [] => some []
  | .two m :: rest => (twosOf rest).map (fun t => m :: t)
  | .one _ :: _ => none

/-- np.hstack: 1-D arrays are concatenated end to end; 2-D arrays with equal
row counts are concatenated along the column axis; an empty argument, mixed
dimensions or mismatched row counts raise. -/
def np_hstack (ys : List NpArr) : Except String NpArr :=
  match ys with
  | [] => .error "ValueError: need at least one array to concatenate"
  | _ :: _ =>
    match onesOf ys with
    | some xss => .ok (.one xss.flatten)
    | none =>
      match twosOf ys with
      | some mss =>
        match mss with
        | [] => .error "ValueError: need at least one array to concatenate"
        | m0 :: _ =>
          if mss.all (fun mm => mm.length = m0.length) then
            .ok (.two ((List.range m0.length).map
              (fun i => (mss.map (fun mm => mm.getD i [])).flatten)))
          else .error "ValueError: all the input array dimensions must match"
      | none => .error "ValueError: all the input arrays must have the same number of dimensions"

/-- bioptim/optimization/solution/utils.py, lines 76 to 83: the final branch
of concatenate_optimization_variables.  Every element except the last loses
its last column (2-D) or last sample (1-D) when continuous_phase holds, and
the results are hstacked. -/
def concat_leaf (var : List NpArr) (continuous_phase : Bool) : Except String NpArr :=
  np_hstack (var.enum.map
    (fun iy =>
      if iy.1 < var.length - 1 ∧ continuous_phase = true then
        match iy.2 with
        | .two rows => .two (rows.map List.dropLast)
        | .one xs => .one xs.dropLast
      else iy.2))

/-- concatenate_optimization_variables applied to a single numpy array, as
done by the inner call on line 69 of the source: a 1-D array has a scalar
first element whose shape is empty, so the body is skipped and Python
returns None; a 2-D array reaches the final branch with its rows as the
iterated elements. -/
def concat_nparr (a : NpArr) (continuous_phase : Bool) : Except String PyRes :=
  match a with
  | .one [] => .error "IndexError: index 0 is out of bounds"
  | .one (_ :: _) => .ok .pynone
  | .two [] => .error "IndexError: index 0 is out of bounds"
  | .two (r :: rs) =>
    match r with
    | [] => .error "IndexError: index 0 is out of bounds"
    | _ :: _ => (concat_leaf ((r :: rs).map NpArr.one) continuous_phase).map PyRes.arr

/-- Recover the arrays from the per-element results before they are passed
back into the merge; a None among them has no shape attribute and is
modelled as an error. -/
def toArrs (z : List PyRes) : Except String (List NpArr) :=
  mapME (fun r => match r with
    | .arr a => .ok a
    | _ => .error "AttributeError: object has no attribute shape") z

/-- bioptim/optimization/solution/utils.py, concatenate_optimization_variables
on a Python list.  When the first element of the first array is itself an
array, each element is merged through the inner call with the interval flag
and, when merge_phases holds, the self call on line 72 merges the collected
results with the phase flag; otherwise the final branch runs directly.  The
depth bound only guards the line 72 self call; concat_pylist_fuel_succ below
shows one unit of depth is exact for arrays of these dimensions. -/
def concat_pylist : Nat → List NpArr → Bool → Bool → Bool → Except String PyRes
  | _, [], _, _, _ => .error "IndexError: list index out of range"
  | fuel, v0 :: rest, continuous_phase, continuous_interval, merge_phases =>
    match v0 with
    | .one [] => .error "IndexError: index 0 is out of bounds"
    | .two [] => .error "IndexError: index 0 is out of bounds"
    | .one (_ :: _) => (concat_leaf (v0 :: rest) continuous_phase).map PyRes.arr
    | .two (_ :: _) =>
      match mapME (fun zi => concat_nparr zi continuous_interval) (v0 :: rest) with
      | .error e => .error e
      | .ok z_final =>
        if merge_phases = true then
          match toArrs z_final with
          | .error e => .error e
          | .ok arrs =>
            match fuel with
            | 0 => .error "RecursionError: maximum recursion depth exceeded"
            | f + 1 => concat_pylist f arrs continuous_phase true true
        else
          .ok (.rlist z_final)

/-- bioptim/optimization/solution/utils.py, concatenate_optimization_variables. -/
def concatenate_optimization_variables (var : PyVar)
    (continuous_phase continuous_interval merge_phases : Bool) : Except String PyRes :=
  match var with
  | .nparr a => concat_nparr a continuous_phase
  | .pylist l => concat_pylist 1 l continuous_phase continuous_interval merge_phases

/-- The node/phase merge the specification describes for a sequence of
blocks along the time axis: drop the last sample of every block except the
final one when continuous, then concatenate. -/
def mergeSpec (c : Bool) : List (List ℚ) → List ℚ
  | [] => []
  | [b] => b
  | b :: bs => (if c then b.dropLast else b) ++ mergeSpec c bs

/-- The composition from the claim: node-merge the blocks of each phase,
collect the per-phase arrays, then phase-merge them, all with one flag. -/
def merge_nodes_then_phases (phases : List (List (List (List ℚ)))) (c : Bool) : Except String PyRes :=
  match mapME (fun p => concatenate_optimization_variables (.pylist (p.map NpArr.two)) c c true) phases with
  | .error e => .error e
  | .ok zs =>
    match toArrs zs with
    | .error e => .error e
    | .ok arrs => concatenate_optimization_variables (.pylist arrs) c c true

/-- An ordered Python dictionary from variable names to 2-D blocks. -/
abbrev VarDict := List (String × List (List ℚ))

/-- An element of the list given to concatenate_optimization_variables_dict:
a dictionary, or something else. -/
inductive DictElem where
  | dict (d : VarDict)
  | nondict

/-- The argument of concatenate_optimization_variables_dict: a Python list,
or a non-list value. -/
inductive PyDictInput where
  | pylist (elems : List DictElem)
  | notAList

/-- Python dictionary lookup d[k]: a missing key raises. -/
def dict_lookup (d : VarDict) (k : String) : Except String (List (List ℚ)) :=
  match d.find? (fun e => e.1 = k) with
  | some e => .ok e.2
  | none => .error "KeyError"

/-- v_i[key] on an arbitrary list element: subscripting a non-dictionary
raises. -/
def elem_lookup (e : DictElem) (k : String) : Except String (List (List ℚ)) :=
  match e with
  | .dict d => dict_lookup d k
  | .nondict => .error "TypeError: object is not subscriptable"

/-- y[:, :-1]: drop the last column of a 2-D block. -/
def dropLastCol (m : List (List ℚ)) : List (List ℚ) :=
  m.map List.dropLast

/-- np.hstack restricted to the 2-D blocks stored in the dictionaries:
requires equal row counts and concatenates the rows pairwise. -/
def hstack2 (ms : List (List (List ℚ))) : Except String (List (List ℚ)) :=
  match ms with
  | [] => .error "ValueError: need at least one array to concatenate"
  | m :: rest =>
    if (m :: rest).all (fun mm => mm.length = m.length) then
      .ok ((List.range m.length).map
        (fun i => ((m :: rest).map (fun mm => mm.getD i [])).flatten))
    else .error "ValueError: all the input array dimensions must match"

/-- bioptim/optimization/solution/utils.py,
concatenate_optimization_variables_dict: a non-list argument raises; an
empty list raises on variable[0]; a first element that is not a dictionary
skips the body and returns None; otherwise, for every key of the first
dictionary, the per-phase blocks lose their last column except for the last
phase when continuous holds and are hstacked, and the merged dictionary is
returned inside a one-element list. -/
def concatenate_optimization_variables_dict (var : PyDictInput) (continuous : Bool) :
    Except String (Option (List VarDict)) :=
  match var with
  | .notAList => .error "the input must be a list"
  | .pylist [] => .error "IndexError: list index out of range"
  | .pylist (e0 :: rest) =>
    match e0 with
    | .nondict => .ok none
    | .dict d0 =>
      match mapME (fun kv =>
          match mapME (fun e => elem_lookup e kv.1) (e0 :: rest) with
          | .error e => .error e
          | .ok vals =>
            match hstack2 (vals.enum.map
                (fun iy => if iy.1 < vals.length - 1 ∧ continuous = true then dropLastCol iy.2 else iy.2)) with
            | .error e => .error e
            | .ok h => .ok (kv.1, h)) d0 with
      | .error e => .error e
      | .ok merged => .ok (some [merged])

/-- The per-key merged block the specification describes: each row of the
result is the continuous merge of the corresponding rows of the per-phase
blocks. -/
def mergeSpecRows (c : Bool) (r : Nat) (blocks : List (List (List ℚ))) : List (List ℚ) :=
  (List.range r).map (fun i => mergeSpec c (blocks.map (fun b => b.getD i [])))

/-- Value of a key in a dictionary, defaulting to an empty block. -/
def lookupD (d : VarDict) (k : String) : List (List ℚ) :=
  ((d.find? (fun e => e.1 = k)).map (fun e => e.2)).getD []

/-- First value stored under a numeric key in a position-row pair list. -/
def lookupKey (i : Nat) : List (Nat × List ℚ) → Option (List ℚ)
  | [] => none
  | p :: ps => if p.1 = i then some p.2 else lookupKey i ps

/-- Selector for the non-negative mapping entries, returning the source row. -/
def selPlus : Option ℤ → Option Nat
  | some k => if 0 ≤ k then some k.natAbs else none
  | none => none

/-- Selector for the negative mapping entries, returning the source row. -/
def selMinus : Option ℤ → Option Nat
  | some k => if k < 0 then some k.natAbs else none
  | none => none

theorem getD_set_self {α} (l : List α) (i : Nat) (x d : α) (h : i < l.length) :
    (l.set i x).getD i d = x := by
  induction l generalizing i with
  | nil => simp at h
  | cons a l ih =>
    cases i with
    | zero => rfl
    | succ j => exact ih j (by simpa using h)

theorem getD_set_ne {α} (l : List α) (i j : Nat) (x d : α) (h : i ≠ j) :
    (l.set i x).getD j d = l.getD j d := by
  induction l generalizing i j with
  | nil => rfl
  | cons a l ih =>
    cases i with
    | zero =>
      cases j with
      | zero => exact absurd rfl h
      | succ j' => rfl
    | succ i' =>
      cases j with
      | zero => rfl
      | succ j' => exact ih i' j' (fun he => h (by rw [he]))

theorem getD_replicate_lt {α} (n i : Nat) (x d : α) (h : i < n) :
    (List.replicate n x).getD i d = x := by
  induction n generalizing i with
  | zero => simp at h
  | succ n ih =>
    cases i with
    | zero => rfl
    | succ j => exact ih j (by omega)

theorem getD_map_default {α β} (f : α → β) (l : List α) (i : Nat) (d : α) :
    (l.map f).getD i (f d) = f (l.getD i d) := by
  induction l generalizing i with
  | nil => rfl
  | cons a l ih =>
    cases i with
    | zero => rfl
    | succ j => exact ih j

theorem lookupKey_eq_none (ps : List (Nat × List ℚ)) (i : Nat) (h : ∀ p ∈ ps, p.1 ≠ i) :
    lookupKey i ps = none := by
  induction ps with
  | nil => rfl
  | cons p ps ih =>
    simp only [lookupKey]
    rw [if_neg (h p (by simp))]
    exact ih (fun q hq => h q (by simp [hq]))

theorem lookupKey_some_mem (ps : List (Nat × List ℚ)) (i : Nat) (r : List ℚ)
    (h : lookupKey i ps = some r) : i ∈ ps.map Prod.fst := by
  induction ps with
  | nil => exact absurd h (by simp [lookupKey])
  | cons p ps ih =>
    simp only [lookupKey] at h
    by_cases hp : p.1 = i
    · simp [hp]
    · rw [if_neg hp] at h
      simp [ih h]

theorem foldl_set_length (prs : List (Nat × List ℚ)) (base : List (List ℚ)) :
    (prs.foldl (fun acc pr => acc.set pr.1 pr.2) base).length = base.length := by
  induction prs generalizing base with
  | nil => rfl
  | cons p prs ih => simpa [List.foldl_cons] using (ih (base.set p.1 p.2)).trans (by simp)

theorem foldl_set_getD (prs : List (Nat × List ℚ)) (base : List (List ℚ))
    (hlt : ∀ p ∈ prs, p.1 < base.length) (hnd : (prs.map Prod.fst).Nodup) (i : Nat) :
    (prs.foldl (fun acc pr => acc.set pr.1 pr.2) base).getD i [] =
      (lookupKey i prs).getD (base.getD i []) := by
  induction prs generalizing base with
  | nil => rfl
  | cons p prs ih =>
    simp only [List.foldl_cons, lookupKey]
    have hlen : (base.set p.1 p.2).length = base.length := by simp
    have hnd' : (prs.map Prod.fst).Nodup := by
      simpa using hnd.of_cons
    have hlt' : ∀ q ∈ prs, q.1 < (base.set p.1 p.2).length := by
      intro q hq; rw [hlen]; exact hlt q (by simp [hq])
    rw [ih (base.set p.1 p.2) hlt' hnd']
    by_cases hp : p.1 = i
    · rw [if_pos hp]
      have hnotmem : ∀ q ∈ prs, q.1 ≠ i := by
        intro q hq he
        have : p.1 ∈ prs.map Prod.fst := by
          rw [hp, ← he]; exact List.mem_map_of_mem Prod.fst hq
        exact (List.nodup_cons.mp hnd).1 (by simpa [hp, he] using this)
      rw [lookupKey_eq_none prs i hnotmem]
      simp only [Option.getD_none, Option.getD_some]
      rw [← hp]
      exact getD_set_self base p.1 p.2 [] (hlt p (by simp))
    · rw [if_neg hp, getD_set_ne base p.1 i p.2 [] hp]

theorem enumFrom_pairs_keys (l : List (Option ℤ)) (F : Option ℤ → Option (List ℚ)) :
    ∀ n p, p ∈ (List.enumFrom n l).filterMap (fun iv => (F iv.2).map (fun r => (iv.1, r))) →
      n ≤ p.1 ∧ p.1 < n + l.length := by
  induction l with
  | nil => intro n p hp; simp [List.enumFrom] at hp
  | cons a l ih =>
    intro n p hp
    cases hF : F a with
    | none =>
      simp only [List.enumFrom, List.filterMap_cons, hF, Option.map_none'] at hp
      have := ih (n + 1) p hp
      refine ⟨by omega, ?_⟩
      simp only [List.length_cons]
      omega
    | some r =>
      simp only [List.enumFrom, List.filterMap_cons, hF, Option.map_some', List.mem_cons] at hp
      cases hp with
      | inl he =>
        subst he
        simp only [List.length_cons]
        exact ⟨Nat.le_refl n, by omega⟩
      | inr hm =>
        have := ih (n + 1) p hm
        refine ⟨by omega, ?_⟩
        simp only [List.length_cons]
        omega

theorem enumFrom_pairs_nodup (l : List (Option ℤ)) (F : Option ℤ → Option (List ℚ)) :
    ∀ n, (((List.enumFrom n l).filterMap (fun iv => (F iv.2).map (fun r => (iv.1, r)))).map Prod.fst).Nodup := by
  induction l with
  | nil => intro n; simp [List.enumFrom]
  | cons a l ih =>
    intro n
    cases hF : F a with
    | none =>
      simp only [List.enumFrom, List.filterMap_cons, hF, Option.map_none']
      exact ih (n + 1)
    | some r =>
      simp only [List.enumFrom, List.filterMap_cons, hF, Option.map_some', List.map_cons, List.nodup_cons]
      refine ⟨?_, ih (n + 1)⟩
      intro hmem
      rcases List.mem_map.mp hmem with ⟨p, hp, hfst⟩
      have := (enumFrom_pairs_keys l F (n + 1) p hp).1
      omega

theorem lookupKey_enumFrom_pairs (l : List (Option ℤ)) (F : Option ℤ → Option (List ℚ)) :
    ∀ n i, i < l.length →
      lookupKey (n + i) ((List.enumFrom n l).filterMap (fun iv => (F iv.2).map (fun r => (iv.1, r)))) =
        F (l.getD i none) := by
  induction l with
  | nil => intro n i hi; simp at hi
  | cons a l ih =>
    intro n i hi
    cases i with
    | zero =>
      cases hF : F a with
      | none =>
        simp only [List.enumFrom, List.filterMap_cons, hF, Option.map_none', Nat.add_zero, List.getD_cons_zero]
        refine lookupKey_eq_none _ _ ?_
        intro p hp
        have := (enumFrom_pairs_keys l F (n + 1) p hp).1
        omega
      | some r =>
        simp only [List.enumFrom, List.filterMap_cons, hF, Option.map_some', Nat.add_zero, List.getD_cons_zero]
        simp [lookupKey]
    | succ j =>
      have hj : j < l.length := by simpa using hi
      cases hF : F a with
      | none =>
        simp only [List.enumFrom, List.filterMap_cons, hF, Option.map_none', List.getD_cons_succ]
        rw [show n + (j + 1) = (n + 1) + j by omega]
        exact ih (n + 1) j hj
      | some r =>
        simp only [List.enumFrom, List.filterMap_cons, hF, Option.map_some', List.getD_cons_succ, lookupKey]
        rw [if_neg (by omega)]
        rw [show n + (j + 1) = (n + 1) + j by omega]
        exact ih (n + 1) j hj

theorem zip_pos_rows (l : List (Option ℤ)) (sel : Option ℤ → Option Nat) (g : Nat → List ℚ) :
    ∀ n, ((List.enumFrom n l).filterMap (fun iv => (sel iv.2).map (fun _ => iv.1))).zip
          ((l.filterMap sel).map g) =
        (List.enumFrom n l).filterMap (fun iv => ((sel iv.2).map g).map (fun r => (iv.1, r))) := by
  induction l with
  | nil => intro n; simp [List.enumFrom]
  | cons a l ih =>
    intro n
    cases hs : sel a with
    | none =>
      simp only [List.enumFrom, List.filterMap_cons, hs, Option.map_none']
      exact ih (n + 1)
    | some k =>
      simp only [List.enumFrom, List.filterMap_cons, hs, Option.map_some', List.map_cons, List.zip_cons_cons]
      rw [ih (n + 1)]

theorem selPlus_eq_lambda :
    (fun v : Option ℤ => match v with
      | some k => if 0 ≤ k then some k.natAbs else none
      | none => none) = selPlus := by
  funext v
  cases v <;> rfl

theorem selMinus_eq_lambda :
    (fun v : Option ℤ => match v with
      | some k => if k < 0 then some k.natAbs else none
      | none => none) = selMinus := by
  funext v
  cases v <;> rfl

theorem posPlus_eq_lambda :
    (fun iv : Nat × Option ℤ => match iv.2 with
      | some k => if 0 ≤ k then some iv.1 else none
      | none => none) = fun iv => (selPlus iv.2).map (fun _ => iv.1) := by
  funext iv
  rcases iv with ⟨i, v⟩
  cases v with
  | none => rfl
  | some k =>
    by_cases hk : 0 ≤ k
    · simp [selPlus, hk]
    · simp [selPlus, hk]

theorem posMinus_eq_lambda :
    (fun iv : Nat × Option ℤ => match iv.2 with
      | some k => if k < 0 then some iv.1 else none
      | none => none) = fun iv => (selMinus iv.2).map (fun _ => iv.1) := by
  funext iv
  rcases iv with ⟨i, v⟩
  cases v with
  | none => rfl
  | some k =>
    by_cases hk : k < 0
    · simp [selMinus, hk]
    · simp [selMinus, hk]

theorem gatherRows_ok (obj : List (List ℚ)) (idxs : List Nat)
    (h : ∀ j ∈ idxs, j < obj.length) :
    gatherRows obj idxs = .ok (idxs.map (fun j => obj.getD j [])) := by
  unfold gatherRows
  rw [if_pos]
  rw [List.all_eq_true]
  intro j hj
  exact decide_eq_true (h j hj)

theorem list_ext_getD {α} (l₁ l₂ : List α) (d : α) (hlen : l₁.length = l₂.length)
    (h : ∀ i, i < l₁.length → l₁.getD i d = l₂.getD i d) : l₁ = l₂ := by
  induction l₁ generalizing l₂ with
  | nil =>
    cases l₂ with
    | nil => rfl
    | cons b l₂ => simp at hlen
  | cons a l₁ ih =>
    cases l₂ with
    | nil => simp at hlen
    | cons b l₂ =>
      have h0 := h 0 (by simp)
      simp only [List.getD_cons_zero] at h0
      subst h0
      have := ih l₂ (by simpa using hlen) (fun i hi => by
        have := h (i + 1) (by simpa using hi)
        simpa using this)
      rw [this]

theorem mapping_map_eq_scatter (m : Mapping) (obj : List (List ℚ))
    (hin : ∀ v ∈ m.map_idx, ∀ k : ℤ, v = some k → k.natAbs < obj.length) :
    Mapping.map m obj = .ok
      (scatterRows
        (scatterRows (List.replicate m.map_idx.length (List.replicate (obj.headD []).length (0 : ℚ)))
          (m.map_idx.enum.filterMap (fun iv => (selPlus iv.2).map (fun _ => iv.1)))
          ((m.map_idx.filterMap selPlus).map (fun j => obj.getD j [])))
        (m.map_idx.enum.filterMap (fun iv => (selMinus iv.2).map (fun _ => iv.1)))
        (((m.map_idx.filterMap selMinus).map (fun j => obj.getD j [])).map (fun r => r.map (fun x => -x)))) := by
  have hplus : ∀ j ∈ m.map_idx.filterMap selPlus, j < obj.length := by
    intro j hj
    rcases List.mem_filterMap.mp hj with ⟨v, hv, hsel⟩
    cases v with
    | none => simp [selPlus] at hsel
    | some k =>
      by_cases hk : 0 ≤ k
      · simp [selPlus, hk] at hsel
        subst hsel
        exact hin (some k) hv k rfl
      · simp [selPlus, hk] at hsel
  have hminus : ∀ j ∈ m.map_idx.filterMap selMinus, j < obj.length := by
    intro j hj
    rcases List.mem_filterMap.mp hj with ⟨v, hv, hsel⟩
    cases v with
    | none => simp [selMinus] at hsel
    | some k =>
      by_cases hk : k < 0
      · simp [selMinus, hk] at hsel
        subst hsel
        exact hin (some k) hv k rfl
      · simp [selMinus, hk] at hsel
  simp only [Mapping.map]
  rw [selPlus_eq_lambda, selMinus_eq_lambda, posPlus_eq_lambda, posMinus_eq_lambda]
  rw [gatherRows_ok obj _ hplus, gatherRows_ok obj _ hminus]
  rfl

theorem enum_eq_enumFrom_zero {α} (l : List α) : l.enum = List.enumFrom 0 l := rfl

theorem mapping_scatter_getD (m : Mapping) (obj : List (List ℚ)) (i : Nat)
    (hi : i < m.map_idx.length) :
    (scatterRows
        (scatterRows (List.replicate m.map_idx.length (List.replicate (obj.headD []).length (0 : ℚ)))
          (m.map_idx.enum.filterMap (fun iv => (selPlus iv.2).map (fun _ => iv.1)))
          ((m.map_idx.filterMap selPlus).map (fun j => obj.getD j [])))
        (m.map_idx.enum.filterMap (fun iv => (selMinus iv.2).map (fun _ => iv.1)))
        (((m.map_idx.filterMap selMinus).map (fun j => obj.getD j [])).map (fun r => r.map (fun x => -x)))).getD i []
      = mapRowSpec obj (obj.headD []).length (m.map_idx.getD i none) := by
  have hmapmap :
      (((m.map_idx.filterMap selMinus).map (fun j => obj.getD j [])).map (fun r => r.map (fun x => -x)))
        = (m.map_idx.filterMap selMinus).map (fun j => (obj.getD j []).map (fun x => -x)) := by
    rw [List.map_map]
    rfl
  simp only [scatterRows, hmapmap, enum_eq_enumFrom_zero]
  rw [zip_pos_rows m.map_idx selPlus (fun j => obj.getD j []) 0]
  rw [zip_pos_rows m.map_idx selMinus (fun j => (obj.getD j []).map (fun x => -x)) 0]
  have hlen_inner :
      (((List.enumFrom 0 m.map_idx).filterMap
          (fun iv => ((selPlus iv.2).map (fun j => obj.getD j [])).map (fun r => (iv.1, r)))).foldl
        (fun acc pr => acc.set pr.1 pr.2)
        (List.replicate m.map_idx.length (List.replicate (obj.headD []).length (0 : ℚ)))).length
      = m.map_idx.length := by
    rw [foldl_set_length]
    simp
  rw [foldl_set_getD _ _
    (by
      intro p hp
      rw [hlen_inner]
      have := (enumFrom_pairs_keys m.map_idx
        (fun v => (selMinus v).map (fun j => (obj.getD j []).map (fun x => -x))) 0 p hp).2
      omega)
    (enumFrom_pairs_nodup m.map_idx (fun v => (selMinus v).map (fun j => (obj.getD j []).map (fun x => -x))) 0)]
  rw [foldl_set_getD _ _
    (by
      intro p hp
      simp only [List.length_replicate]
      have := (enumFrom_pairs_keys m.map_idx (fun v => (selPlus v).map (fun j => obj.getD j [])) 0 p hp).2
      omega)
    (enumFrom_pairs_nodup m.map_idx (fun v => (selPlus v).map (fun j => obj.getD j [])) 0)]
  have hlkP := lookupKey_enumFrom_pairs m.map_idx
    (fun v => (selPlus v).map (fun j => obj.getD j [])) 0 i hi
  have hlkM := lookupKey_enumFrom_pairs m.map_idx
    (fun v => (selMinus v).map (fun j => (obj.getD j []).map (fun x => -x))) 0 i hi
  rw [Nat.zero_add] at hlkP hlkM
  rw [hlkP, hlkM]
  rw [getD_replicate_lt _ _ _ _ hi]
  cases hv : m.map_idx.getD i none with
  | none => simp [selPlus, selMinus, mapRowSpec]
  | some k =>
    by_cases hk : k < 0
    · simp [selPlus, selMinus, mapRowSpec, hk, not_le.mpr hk]
    · simp [selPlus, selMinus, mapRowSpec, hk, not_lt.mp hk]

theorem getD_map_lt {α β} (f : α → β) (l : List α) (i : Nat) (d : β) (d' : α)
    (h : i < l.length) : (l.map f).getD i d = f (l.getD i d') := by
  induction l generalizing i with
  | nil => simp at h
  | cons a l ih =>
    cases i with
    | zero => rfl
    | succ j => exact ih j (by simpa using h)

theorem mapping_scatter_length (m : Mapping) (obj : List (List ℚ)) :
    (scatterRows
        (scatterRows (List.replicate m.map_idx.length (List.replicate (obj.headD []).length (0 : ℚ)))
          (m.map_idx.enum.filterMap (fun iv => (selPlus iv.2).map (fun _ => iv.1)))
          ((m.map_idx.filterMap selPlus).map (fun j => obj.getD j [])))
        (m.map_idx.enum.filterMap (fun iv => (selMinus iv.2).map (fun _ => iv.1)))
        (((m.map_idx.filterMap selMinus).map (fun j => obj.getD j [])).map (fun r => r.map (fun x => -x)))).length
      = m.map_idx.length := by
  simp only [scatterRows]
  rw [foldl_set_length, foldl_set_length]
  simp

theorem mapping_map_char (m : Mapping) (obj : List (List ℚ))
    (hin : ∀ v ∈ m.map_idx, ∀ k : ℤ, v = some k → k.natAbs < obj.length) :
    Mapping.map m obj = .ok (m.map_idx.map (mapRowSpec obj (obj.headD []).length)) := by
  rw [mapping_map_eq_scatter m obj hin]
  congr 1
  apply list_ext_getD _ _ []
  · rw [mapping_scatter_length]
    simp
  · intro i hi
    rw [mapping_scatter_length] at hi
    rw [mapping_scatter_getD m obj i hi]
    rw [getD_map_lt (mapRowSpec obj (obj.headD []).length) m.map_idx i [] none hi]

theorem gatherRows_error (obj : List (List ℚ)) (idxs : List Nat)
    (h : ∃ j ∈ idxs, ¬ j < obj.length) :
    gatherRows obj idxs = .error "IndexError: index is out of bounds for axis 0" := by
  unfold gatherRows
  rw [if_neg]
  intro hall
  rw [List.all_eq_true] at hall
  rcases h with ⟨j, hj, hlt⟩
  exact hlt (of_decide_eq_true (hall j hj))

/-- C1: for a mapping whose referenced source rows all exist, Mapping.map
succeeds and returns one row per map_idx entry; a row with a non-sentinel
entry v equals sign v times input row natAbs v with all columns preserved, a
sentinel row is exactly zero, and any input whose referenced rows and column
count agree produces the identical result, so unreferenced rows have no
effect. -/
theorem C1_mapping_map_rows (m : Mapping) (obj : List (List ℚ))
    (hin : ∀ v ∈ m.map_idx, ∀ k : ℤ, v = some k → k.natAbs < obj.length) :
    Mapping.map m obj = .ok (m.map_idx.map (mapRowSpec obj (obj.headD []).length))
    ∧ ∀ obj₂ : List (List ℚ),
        (obj₂.headD []).length = (obj.headD []).length →
        (∀ v ∈ m.map_idx, ∀ k : ℤ, v = some k →
          k.natAbs < obj₂.length ∧ obj₂.getD k.natAbs [] = obj.getD k.natAbs []) →
        Mapping.map m obj₂ = Mapping.map m obj := by
  refine ⟨mapping_map_char m obj hin, ?_⟩
  intro obj₂ hcols hrows
  have hin₂ : ∀ v ∈ m.map_idx, ∀ k : ℤ, v = some k → k.natAbs < obj₂.length :=
    fun v hv k hk => (hrows v hv k hk).1
  rw [mapping_map_char m obj hin, mapping_map_char m obj₂ hin₂]
  congr 1
  apply List.map_congr_left
  intro v hv
  cases v with
  | none =>
    simp only [mapRowSpec]
    rw [hcols]
  | some k =>
    have hrow := (hrows (some k) hv k rfl).2
    by_cases hk : k < 0
    · simp only [mapRowSpec]
      rw [if_pos hk, if_pos hk, hrow]
    · simp only [mapRowSpec]
      rw [if_neg hk, if_neg hk, hrow]

/-- C1 witness: the examples of the specification, with the sentinel and
duplicate entries, and the negative-entry example. -/
theorem C1_mapping_map_rows_witness :
    Mapping.map ⟨[some 0, some 1, some 1, some 3, none, some 1]⟩
        [[(1 : ℚ)], [2], [3], [4], [5], [6]] = .ok [[1], [2], [2], [4], [0], [2]]
    ∧ Mapping.map ⟨[some (-2)]⟩ [[(1 : ℚ)], [2], [3]] = .ok [[-3]] := by
  constructor
  · rw [(C1_mapping_map_rows ⟨[some 0, some 1, some 1, some 3, none, some 1]⟩
      [[(1 : ℚ)], [2], [3], [4], [5], [6]] (by decide)).1]
    rfl
  · rw [(C1_mapping_map_rows ⟨[some (-2)]⟩ [[(1 : ℚ)], [2], [3]] (by decide)).1]
    rfl

/-- C7: when some entry of the mapping references a source row at or beyond
the row count of the input, Mapping.map fails with an index error instead of
returning a result. -/
theorem C7_mapping_map_out_of_range (m : Mapping) (obj : List (List ℚ))
    (h : ∃ k : ℤ, some k ∈ m.map_idx ∧ obj.length ≤ k.natAbs) :
    ∃ msg, Mapping.map m obj = .error msg := by
  rcases h with ⟨k, hk, hlen⟩
  by_cases hpos : 0 ≤ k
  · refine ⟨"IndexError: index is out of bounds for axis 0", ?_⟩
    simp only [Mapping.map]
    rw [selPlus_eq_lambda, selMinus_eq_lambda, posPlus_eq_lambda, posMinus_eq_lambda]
    rw [gatherRows_error obj _ ⟨k.natAbs, List.mem_filterMap.mpr ⟨some k, hk, by simp [selPlus, hpos]⟩, by omega⟩]
    rfl
  · cases hres : gatherRows obj (m.map_idx.filterMap selPlus) with
    | error e =>
      refine ⟨e, ?_⟩
      simp only [Mapping.map]
      rw [selPlus_eq_lambda, selMinus_eq_lambda, posPlus_eq_lambda, posMinus_eq_lambda]
      rw [hres]
      rfl
    | ok rows =>
      refine ⟨"IndexError: index is out of bounds for axis 0", ?_⟩
      simp only [Mapping.map]
      rw [selPlus_eq_lambda, selMinus_eq_lambda, posPlus_eq_lambda, posMinus_eq_lambda]
      rw [hres]
      rw [gatherRows_error obj _ ⟨k.natAbs, List.mem_filterMap.mpr
        ⟨some k, hk, by simp [selMinus, lt_of_not_ge hpos]⟩, by omega⟩]
      rfl

/-- C7 witness: a mapping referencing row 5 of a one-row matrix fails. -/
theorem C7_mapping_map_out_of_range_witness :
    (Mapping.map ⟨[some 5]⟩ [[(1 : ℚ)]]).isOk = false := by
  rcases C7_mapping_map_out_of_range ⟨[some 5]⟩ [[(1 : ℚ)]] ⟨5, by decide, by decide⟩ with ⟨msg, hmsg⟩
  rw [hmsg]
  rfl

/-- C4 counterexample: a derivative function returning a width-1 expression
for a declared state width of 2 is compiled without any error into a
function of output width 1, so no configuration error is raised on the
dimension mismatch. -/
theorem C4_no_width_check_counterexample :
    configure_dynamics_function 2 0 0 (fun _ _ _ => DynExpr.single 1) =
      { name := "ForwardDyn", input_names := ["x", "u", "p"], output_names := ["xdot"],
        input_widths := [2, 0, 0], output_width := 1 }
    ∧ (1 : Nat) ≠ 2 := by
  exact ⟨rfl, by decide⟩

/-- C4 amended: configure_dynamics_function performs no width validation at
all; for every derivative function it produces a compiled function whose
output width is exactly the width of the returned, vertically concatenated
expression, never truncated or padded to the declared state width, and the
input placeholders have exactly the declared state, control and parameter
widths. -/
theorem C4_output_width_unchecked (n_states n_controls n_params : Nat)
    (dyn_func : Nat → Nat → Nat → DynExpr) :
    (configure_dynamics_function n_states n_controls n_params dyn_func).output_width =
        vertcat_width (dyn_func n_states n_controls n_params)
    ∧ (configure_dynamics_function n_states n_controls n_params dyn_func).input_widths =
        [n_states, n_controls, n_params]
    ∧ (configure_dynamics_function n_states n_controls n_params dyn_func).name = "ForwardDyn" := by
  exact ⟨rfl, rfl, rfl⟩

/-- C5: in configure_taudot the full-space placeholder is sized by the
to_second mapping of q rather than by the to_second mapping of taudot, so
with a q mapping of two entries and a taudot mapping of one entry the full
placeholder has two elements, not one; configure_q itself sizes its full
placeholder from its own mapping. -/
theorem C5_taudot_full_placeholder_uses_q :
    (configure_taudot ⟨⟨[some 0, some 1]⟩, ⟨[some 0, some 1]⟩⟩ ⟨⟨[some 0]⟩, ⟨[some 0]⟩⟩
        ["dof0", "dof1"] 1).mx_names.length = 2
    ∧ ((⟨⟨[some 0]⟩, ⟨[some 0]⟩⟩ : BiMapping)).to_second.map_idx.length = 1
    ∧ (configure_taudot ⟨⟨[some 0, some 1]⟩, ⟨[some 0, some 1]⟩⟩ ⟨⟨[some 0]⟩, ⟨[some 0]⟩⟩
        ["dof0", "dof1"] 1).all_cx_names = [["Taudot_dof0_0"]]
    ∧ (configure_q ⟨⟨[some 0, some 1]⟩, ⟨[some 0, some 1]⟩⟩ ["dof0", "dof1"]).mx_names.length = 2 := by
  refine ⟨rfl, rfl, ?_, rfl⟩
  rfl

/-- C6: adding a name that is already registered in a BiMappingList raises
the duplicate-name error whatever the phase and mapping arguments are, and
two adds with distinct fresh names both succeed in either order. -/
theorem C6_bimappinglist_duplicate_name :
    (∀ (self : BiMappingList) (name : String) (ts tf : Option Mapping)
        (bm : Option BiMapping) (phase : Nat),
      self.containsName name = true →
        self.add name ts tf bm phase = .error "BiMapping name should be unique")
    ∧ (∀ (self : BiMappingList) (n₁ n₂ : String) (ts₁ tf₁ ts₂ tf₂ : Mapping) (p₁ p₂ : Nat),
        n₁ ≠ n₂ → self.containsName n₁ = false → self.containsName n₂ = false →
        ∃ s₁ s₂, self.add n₁ (some ts₁) (some tf₁) none p₁ = .ok s₁
          ∧ s₁.add n₂ (some ts₂) (some tf₂) none p₂ = .ok s₂) := by
  constructor
  · intro self name ts tf bm phase h
    rw [BiMappingList.add.eq_def]
    rw [if_pos h]
  · intro self n₁ n₂ ts₁ tf₁ ts₂ tf₂ p₁ p₂ hne h₁ h₂
    refine ⟨⟨self.options ++ [(n₁, p₁, BiMapping.mk ts₁ tf₁)]⟩,
      ⟨(self.options ++ [(n₁, p₁, BiMapping.mk ts₁ tf₁)]) ++ [(n₂, p₂, BiMapping.mk ts₂ tf₂)]⟩, ?_, ?_⟩
    · rw [BiMappingList.add.eq_def]
      rw [if_neg (by rw [h₁]; exact Bool.false_ne_true)]
    · rw [BiMappingList.add.eq_def]
      rw [if_neg ?_]
      intro hc
      simp only [BiMappingList.containsName, List.any_append, List.any_cons, List.any_nil,
        Bool.or_false, Bool.or_eq_true] at hc
      cases hc with
      | inl h => rw [BiMappingList.containsName] at h₂; rw [h₂] at h; exact Bool.false_ne_true h
      | inr h => exact hne (by simpa using h)

/-- C6 witness: a duplicate add on a concrete registry errors even at a
different phase, and two distinct names are accepted in sequence. -/
theorem C6_bimappinglist_duplicate_name_witness :
    (BiMappingList.mk [("q", 0, BiMapping.mk ⟨[some 0]⟩ ⟨[some 0]⟩)]).add "q"
        (some ⟨[some 0]⟩) (some ⟨[some 0]⟩) none 3 = .error "BiMapping name should be unique"
    ∧ ∃ s₁ s₂, (BiMappingList.mk []).add "q" (some ⟨[some 0]⟩) (some ⟨[some 0]⟩) none 0 = .ok s₁
        ∧ s₁.add "qdot" (some ⟨[some 1]⟩) (some ⟨[some 1]⟩) none 1 = .ok s₂ := by
  constructor
  · exact C6_bimappinglist_duplicate_name.1 _ "q" _ _ none 3 (by decide)
  · exact C6_bimappinglist_duplicate_name.2 (BiMappingList.mk []) "q" "qdot"
      ⟨[some 0]⟩ ⟨[some 0]⟩ ⟨[some 1]⟩ ⟨[some 1]⟩ 0 1 (by decide) rfl rfl

/-- C8: with a fresh name, supplying an explicit BiMapping together with a
raw to_second or to_first raises the construction error, supplying neither
an explicit BiMapping nor both raw mappings raises the same error, and each
of the two pure construction forms succeeds. -/
theorem C8_bimappinglist_add_forms (self : BiMappingList) (name : String) (phase : Nat)
    (h : self.containsName name = false) :
    (∀ (bm : BiMapping) (ts tf : Option Mapping), (ts.isSome || tf.isSome) = true →
        self.add name ts tf (some bm) phase =
          .error "BiMappingList should either be a to_second/to_first or an actual BiMapping")
    ∧ (∀ ts tf : Option Mapping, ts = none ∨ tf = none →
        self.add name ts tf none phase =
          .error "BiMappingList should either be a to_second/to_first or an actual BiMapping")
    ∧ (∀ bm : BiMapping, ∃ s, self.add name none none (some bm) phase = .ok s)
    ∧ (∀ ts tf : Mapping, ∃ s, self.add name (some ts) (some tf) none phase = .ok s) := by
  have hneg : ¬ self.containsName name = true := by rw [h]; exact Bool.false_ne_true
  refine ⟨?_, ?_, ?_, ?_⟩
  · intro bm ts tf hsome
    rw [BiMappingList.add.eq_def]
    rw [if_neg hneg]
    simp only [hsome]
    rfl
  · intro ts tf hor
    rw [BiMappingList.add.eq_def]
    rw [if_neg hneg]
    cases hor with
    | inl hts => subst hts; cases tf <;> rfl
    | inr htf => subst htf; cases ts <;> rfl
  · intro bm
    refine ⟨⟨self.options ++ [(name, phase, BiMapping.mk bm.to_second bm.to_first)]⟩, ?_⟩
    rw [BiMappingList.add.eq_def]
    rw [if_neg hneg]
    simp only [Option.isSome_none, Bool.or_false]
    rw [BiMappingList.add.eq_def]
    rw [if_neg hneg]
    rfl
  · intro ts tf
    exact ⟨⟨self.options ++ [(name, phase, BiMapping.mk ts tf)]⟩, by
      rw [BiMappingList.add.eq_def]
      rw [if_neg hneg]⟩

/-- C8 witness: on the empty registry, the mixed forms error and each pure
form succeeds. -/
theorem C8_bimappinglist_add_forms_witness :
    (BiMappingList.mk []).add "q" (some ⟨[some 0]⟩) none
        (some (BiMapping.mk ⟨[some 0]⟩ ⟨[some 0]⟩)) 0 =
      .error "BiMappingList should either be a to_second/to_first or an actual BiMapping"
    ∧ (BiMappingList.mk []).add "q" (some ⟨[some 0]⟩) none none 0 =
      .error "BiMappingList should either be a to_second/to_first or an actual BiMapping"
    ∧ (∃ s, (BiMappingList.mk []).add "q" none none
        (some (BiMapping.mk ⟨[some 0]⟩ ⟨[some 0]⟩)) 0 = .ok s)
    ∧ (∃ s, (BiMappingList.mk []).add "q" (some ⟨[some 0]⟩) (some ⟨[some 0]⟩) none 0 = .ok s) := by
  have h := C8_bimappinglist_add_forms (BiMappingList.mk []) "q" 0 rfl
  exact ⟨h.1 (BiMapping.mk ⟨[some 0]⟩ ⟨[some 0]⟩) (some ⟨[some 0]⟩) none rfl,
    h.2.1 (some ⟨[some 0]⟩) none (Or.inr rfl),
    h.2.2.1 (BiMapping.mk ⟨[some 0]⟩ ⟨[some 0]⟩),
    h.2.2.2 ⟨[some 0]⟩ ⟨[some 0]⟩⟩

theorem mapME_ok {α β} (f : α → Except String β) (g : α → β) (l : List α)
    (h : ∀ x ∈ l, f x = .ok (g x)) : mapME f l = .ok (l.map g) := by
  induction l with
  | nil => rfl
  | cons a l ih =>
    simp only [mapME, List.map_cons]
    rw [h a (by simp), ih (fun x hx => h x (by simp [hx]))]

theorem mapME_ok_mem {α β} (f : α → Except String β) (l : List α) (ys : List β)
    (h : mapME f l = .ok ys) : ∀ y ∈ ys, ∃ x ∈ l, f x = .ok y := by
  induction l generalizing ys with
  | nil =>
    simp only [mapME] at h
    cases h
    intro y hy
    simp at hy
  | cons a l ih =>
    simp only [mapME] at h
    cases hfa : f a with
    | error e => rw [hfa] at h; cases h
    | ok b =>
      rw [hfa] at h
      cases hrest : mapME f l with
      | error e => rw [hrest] at h; cases h
      | ok bs =>
        rw [hrest] at h
        cases h
        intro y hy
        cases hy with
        | head => exact ⟨a, by simp, hfa⟩
        | tail _ hy' =>
          rcases ih bs hrest y hy' with ⟨x, hx, hfx⟩
          exact ⟨x, by simp [hx], hfx⟩

theorem mapME_comp_map {α β γ} (f : β → Except String γ) (h : α → β) (l : List α) :
    mapME f (l.map h) = mapME (fun x => f (h x)) l := by
  induction l with
  | nil => rfl
  | cons a l ih => simp only [mapME, List.map_cons, ih]

theorem onesOf_map_one (ls : List (List ℚ)) : onesOf (ls.map NpArr.one) = some ls := by
  induction ls with
  | nil => rfl
  | cons a ls ih => simp [onesOf, ih]

theorem np_hstack_ones (ls : List (List ℚ)) (h : ls ≠ []) :
    np_hstack (ls.map NpArr.one) = .ok (.one ls.flatten) := by
  cases ls with
  | nil => exact absurd rfl h
  | cons a ls =>
    simp only [np_hstack, List.map_cons]
    rw [show onesOf (NpArr.one a :: ls.map NpArr.one) = some (a :: ls) from by
      simp [onesOf, onesOf_map_one]]

theorem mergeSpec_enumFrom (c : Bool) :
    ∀ (ls : List (List ℚ)) (n : Nat),
      ((List.enumFrom n ls).map
        (fun iy => if iy.1 < n + ls.length - 1 ∧ c = true then iy.2.dropLast else iy.2)).flatten
      = mergeSpec c ls := by
  intro ls
  induction ls with
  | nil => intro n; rfl
  | cons b bs ih =>
    intro n
    rw [show List.enumFrom n (b :: bs) = (n, b) :: List.enumFrom (n + 1) bs from rfl]
    rw [List.map_cons, List.flatten_cons]
    have hpt : ∀ iy ∈ List.enumFrom (n + 1) bs,
        (if iy.1 < n + (b :: bs).length - 1 ∧ c = true then iy.2.dropLast else iy.2)
        = (if iy.1 < (n + 1) + bs.length - 1 ∧ c = true then iy.2.dropLast else iy.2) := by
      intro iy hiy
      have harith : n + (b :: bs).length - 1 = (n + 1) + bs.length - 1 := by
        simp only [List.length_cons]
        omega
      rw [harith]
    rw [List.map_congr_left hpt, ih (n + 1)]
    cases bs with
    | nil =>
      rw [if_neg ?_]
      · simp [mergeSpec]
      · simp
    | cons b' bs' =>
      have hlt : n < n + (b :: b' :: bs').length - 1 := by
        simp only [List.length_cons]
        omega
      cases c with
      | true =>
        rw [if_pos ⟨hlt, rfl⟩]
        rfl
      | false =>
        rw [if_neg (by simp)]
        rfl

theorem concat_leaf_ones (ls : List (List ℚ)) (c : Bool) (h : ls ≠ []) :
    concat_leaf (ls.map NpArr.one) c = .ok (.one (mergeSpec c ls)) := by
  unfold concat_leaf
  have hrw : (ls.map NpArr.one).enum.map
        (fun iy =>
          if iy.1 < (ls.map NpArr.one).length - 1 ∧ c = true then
            match iy.2 with
            | .two rows => .two (rows.map List.dropLast)
            | .one xs => .one xs.dropLast
          else iy.2)
      = (ls.enum.map (fun iy => if iy.1 < ls.length - 1 ∧ c = true then iy.2.dropLast else iy.2)).map
          NpArr.one := by
    rw [List.enum_map, List.map_map, List.map_map]
    apply List.map_congr_left
    intro iy hiy
    rcases iy with ⟨i, xs⟩
    simp only [Function.comp_apply, Prod.map_apply, id_eq, List.length_map]
    by_cases hc : i < ls.length - 1 ∧ c = true
    · rw [if_pos hc, if_pos hc]
    · rw [if_neg hc, if_neg hc]
  rw [hrw]
  rw [np_hstack_ones _ (by
    intro hnil
    apply h
    have := congrArg List.length hnil
    simp at this
    exact this)]
  have hms := mergeSpec_enumFrom c ls 0
  simp only [Nat.zero_add] at hms
  rw [← enum_eq_enumFrom_zero] at hms
  rw [hms]

theorem mergeSpec_ne_nil (c : Bool) (ls : List (List ℚ)) (h : ls ≠ [])
    (hall : ∀ b ∈ ls, b ≠ []) : mergeSpec c ls ≠ [] := by
  induction ls with
  | nil => exact absurd rfl h
  | cons b bs ih =>
    cases bs with
    | nil => exact hall b (by simp)
    | cons b' bs' =>
      have : mergeSpec c (b' :: bs') ≠ [] :=
        ih (by simp) (fun x hx => hall x (by simp [hx]))
      rw [show mergeSpec c (b :: b' :: bs') =
        (if c then b.dropLast else b) ++ mergeSpec c (b' :: bs') from rfl]
      simp [this]

theorem concat_nparr_two (b : List (List ℚ)) (c : Bool) (hb : b ≠ [])
    (hrow : b.headD [] ≠ []) :
    concat_nparr (.two b) c = .ok (.arr (.one (mergeSpec c b))) := by
  cases b with
  | nil => exact absurd rfl hb
  | cons r rs =>
    cases r with
    | nil => exact absurd rfl hrow
    | cons x xs =>
      show (concat_leaf (((x :: xs) :: rs).map NpArr.one) c).map PyRes.arr = _
      rw [concat_leaf_ones _ c (by simp)]
      rfl

theorem concat_pylist_ones (f : Nat) (ls : List (List ℚ)) (cp ci mp : Bool)
    (h : ls.headD [] ≠ []) (hne : ls ≠ []) :
    concat_pylist f (ls.map NpArr.one) cp ci mp = (concat_leaf (ls.map NpArr.one) cp).map PyRes.arr := by
  cases ls with
  | nil => exact absurd rfl hne
  | cons a ls =>
    cases a with
    | nil => exact absurd rfl h
    | cons x xs =>
      simp only [List.map_cons, concat_pylist]

theorem concat_nparr_ok_one (a : NpArr) (c : Bool) (x : NpArr)
    (h : concat_nparr a c = .ok (.arr x)) : ∃ xs, x = .one xs := by
  cases a with
  | one ys =>
    cases ys with
    | nil => cases h
    | cons y ys => simp [concat_nparr] at h
  | two rows =>
    cases rows with
    | nil => cases h
    | cons r rs =>
      cases r with
      | nil => cases h
      | cons z zs =>
        rw [show concat_nparr (.two ((z :: zs) :: rs)) c =
          (concat_leaf (((z :: zs) :: rs).map NpArr.one) c).map PyRes.arr from rfl] at h
        rw [concat_leaf_ones _ c (by simp)] at h
        simp only [Except.map] at h
        cases h
        exact ⟨_, rfl⟩

theorem concat_pylist_ones_fuel (arrs : List NpArr) (cp ci mp : Bool)
    (h : ∀ a ∈ arrs, ∃ xs, a = NpArr.one xs) (f g : Nat) :
    concat_pylist f arrs cp ci mp = concat_pylist g arrs cp ci mp := by
  cases arrs with
  | nil => simp only [concat_pylist]
  | cons a rest =>
    rcases h a (by simp) with ⟨xs, hx⟩
    subst hx
    cases xs with
    | nil => simp only [concat_pylist]
    | cons x xs' => simp only [concat_pylist]

/-- One unit of nesting depth for the self call on line 72 of the source is
exact: with more depth available the merge computes the same value, because
the arrays collected from the inner per-element calls are always 1-D, so the
nested merge dispatches to the final branch and never recurses again. -/
theorem concat_pylist_fuel_succ (f : Nat) (l : List NpArr) (cp ci mp : Bool) :
    concat_pylist (f + 1) l cp ci mp = concat_pylist 1 l cp ci mp := by
  cases l with
  | nil => rfl
  | cons v0 rest =>
    cases v0 with
    | one xs => cases xs <;> rfl
    | two rows =>
      cases rows with
      | nil => rfl
      | cons r rs =>
        simp only [concat_pylist]
        cases hz : mapME (fun zi => concat_nparr zi ci) (NpArr.two (r :: rs) :: rest) with
        | error e => rfl
        | ok z =>
          cases mp with
          | false => rfl
          | true =>
            simp only [if_pos rfl]
            cases ht : toArrs z with
            | error e => rfl
            | ok arrs =>
              have hall : ∀ a ∈ arrs, ∃ xs, a = NpArr.one xs := by
                intro a ha
                rcases mapME_ok_mem _ z arrs ht a ha with ⟨res, hres, hok⟩
                cases res with
                | pynone => cases hok
                | rlist _ => cases hok
                | arr a' =>
                  rcases mapME_ok_mem _ _ z hz (PyRes.arr a') hres with ⟨zi, _, hzi⟩
                  cases hok
                  exact concat_nparr_ok_one zi ci _ hzi
              exact concat_pylist_ones_fuel arrs cp true true hall f 0

theorem toArrs_map_arr {α} (l : List α) (g : α → NpArr) :
    toArrs (l.map (fun b => PyRes.arr (g b))) = .ok (l.map g) := by
  unfold toArrs
  rw [mapME_comp_map]
  exact mapME_ok _ g l (fun b _ => rfl)

theorem concat_pylist_twos_succ (f : Nat) (blocks : List (List (List ℚ))) (c : Bool)
    (hb : blocks ≠ []) (hrows : ∀ b ∈ blocks, b ≠ [])
    (hcols : ∀ b ∈ blocks, ∀ r ∈ b, r ≠ []) :
    concat_pylist (f + 1) (blocks.map NpArr.two) c c true =
      .ok (.arr (.one (mergeSpec c (blocks.map (mergeSpec c))))) := by
  have hhead : ∀ b ∈ blocks, b.headD [] ≠ [] := by
    intro b hbm
    cases hbb : b with
    | nil => exact absurd hbb (hrows b hbm)
    | cons r rs =>
      simp only [List.headD_cons]
      exact hcols b hbm r (by rw [hbb]; simp)
  have hz : mapME (fun zi => concat_nparr zi c) (blocks.map NpArr.two) =
      .ok (blocks.map (fun b => PyRes.arr (.one (mergeSpec c b)))) := by
    rw [mapME_comp_map]
    exact mapME_ok _ _ blocks
      (fun b hbm => concat_nparr_two b c (hrows b hbm) (hhead b hbm))
  have ht : toArrs (blocks.map (fun b => PyRes.arr (.one (mergeSpec c b)))) =
      .ok (blocks.map (fun b => NpArr.one (mergeSpec c b))) :=
    toArrs_map_arr blocks (fun b => NpArr.one (mergeSpec c b))
  have hone : blocks.map (fun b => NpArr.one (mergeSpec c b)) =
      (blocks.map (mergeSpec c)).map NpArr.one := by
    rw [List.map_map]
    rfl
  cases blocks with
  | nil => exact absurd rfl hb
  | cons b0 bs =>
    have hb0 : b0 ≠ [] := hrows b0 (by simp)
    cases b0 with
    | nil => exact absurd rfl hb0
    | cons r0 rs0 =>
      have hr0 : r0 ≠ [] := hcols (r0 :: rs0) (by simp) r0 (by simp)
      cases r0 with
      | nil => exact absurd rfl hr0
      | cons x xs =>
        simp only [List.map_cons] at hz ht hone ⊢
        simp only [concat_pylist]
        rw [hz]
        dsimp only
        rw [if_pos trivial]
        rw [ht]
        dsimp only
        have hone2 : NpArr.one (mergeSpec c ((x :: xs) :: rs0)) ::
              List.map (fun b => NpArr.one (mergeSpec c b)) bs =
            (mergeSpec c ((x :: xs) :: rs0) :: List.map (mergeSpec c) bs).map NpArr.one := by
          simp only [List.map_cons, List.map_map]
          rfl
        rw [hone2]
        rw [concat_pylist_ones f _ c true true
          (by
            simp only [List.headD_cons]
            exact mergeSpec_ne_nil c ((x :: xs) :: rs0) (by simp)
              (fun r hr => hcols ((x :: xs) :: rs0) (by simp) r hr))
          (by simp)]
        rw [concat_leaf_ones _ c (by simp)]
        rfl

theorem concat_vars_twos (blocks : List (List (List ℚ))) (c : Bool)
    (hb : blocks ≠ []) (hrows : ∀ b ∈ blocks, b ≠ [])
    (hcols : ∀ b ∈ blocks, ∀ r ∈ b, r ≠ []) :
    concatenate_optimization_variables (.pylist (blocks.map NpArr.two)) c c true =
      .ok (.arr (.one (mergeSpec c (blocks.map (mergeSpec c))))) := by
  show concat_pylist 1 (blocks.map NpArr.two) c c true = _
  exact concat_pylist_twos_succ 0 blocks c hb hrows hcols

/-- C2 counterexample: two 2-row blocks of widths 2 and 2 are not merged
into a 2-row matrix; the merge flattens each block row-wise and returns a
1-D array, so the claimed column-dropping concatenation
[[1, 5, 6], [3, 7, 8]] is not produced. -/
theorem C2_two_row_blocks_counterexample :
    concatenate_optimization_variables
        (.pylist [NpArr.two [[1, 2], [3, 4]], NpArr.two [[5, 6], [7, 8]]]) true true true
      = .ok (.arr (.one [1, 3, 5, 7, 8]))
    ∧ NpArr.one [1, 3, 5, 7, 8] ≠ NpArr.two [[1, 5, 6], [3, 7, 8]] := by
  constructor
  · rfl
  · intro hcontra
    cases hcontra

/-- C2 amended: for one-dimensional blocks the merge with a single flag set
to true concatenates along the time axis after dropping the last sample of
every block except the final one, and with the flag false it keeps every
sample; the result is a 1-D array. -/
theorem C2_one_dimensional_merge (c : Bool) (blocks : List (List ℚ))
    (hne : blocks ≠ []) (hhead : blocks.headD [] ≠ []) :
    concatenate_optimization_variables (.pylist (blocks.map NpArr.one)) c c true =
      .ok (.arr (.one (mergeSpec c blocks))) := by
  show concat_pylist 1 (blocks.map NpArr.one) c c true = _
  rw [concat_pylist_ones 1 blocks c c true hhead hne]
  rw [concat_leaf_ones blocks c hne]
  rfl

/-- C2 witness: three 1-D blocks of widths 4, 5 and 6 merge to width 13 when
continuous and to width 15 otherwise. -/
theorem C2_one_dimensional_merge_witness :
    concatenate_optimization_variables
        (.pylist ([[(1 : ℚ), 2, 3, 4], [5, 6, 7, 8, 9], [10, 11, 12, 13, 14, 15]].map NpArr.one))
        true true true
      = .ok (.arr (.one (mergeSpec true [[(1 : ℚ), 2, 3, 4], [5, 6, 7, 8, 9], [10, 11, 12, 13, 14, 15]])))
    ∧ (mergeSpec true [[(1 : ℚ), 2, 3, 4], [5, 6, 7, 8, 9], [10, 11, 12, 13, 14, 15]]).length = 13
    ∧ concatenate_optimization_variables
        (.pylist ([[(1 : ℚ), 2, 3, 4], [5, 6, 7, 8, 9], [10, 11, 12, 13, 14, 15]].map NpArr.one))
        false false true
      = .ok (.arr (.one (mergeSpec false [[(1 : ℚ), 2, 3, 4], [5, 6, 7, 8, 9], [10, 11, 12, 13, 14, 15]])))
    ∧ (mergeSpec false [[(1 : ℚ), 2, 3, 4], [5, 6, 7, 8, 9], [10, 11, 12, 13, 14, 15]]).length = 15 := by
  refine ⟨C2_one_dimensional_merge true _ (by simp) (by simp), rfl,
    C2_one_dimensional_merge false _ (by simp) (by simp), rfl⟩

theorem mergeSpec_false (ls : List (List ℚ)) : mergeSpec false ls = ls.flatten := by
  induction ls with
  | nil => rfl
  | cons b bs ih =>
    cases bs with
    | nil => simp [mergeSpec]
    | cons b' bs' =>
      rw [show mergeSpec false (b :: b' :: bs') =
        (if false then b.dropLast else b) ++ mergeSpec false (b' :: bs') from rfl]
      rw [ih]
      simp

theorem mergeSpec_append (c : Bool) (g rest : List (List ℚ)) (hrest : rest ≠ []) :
    mergeSpec c (g ++ rest) =
      (g.map (fun b => if c then b.dropLast else b)).flatten ++ mergeSpec c rest := by
  induction g with
  | nil => simp
  | cons b g' ih =>
    have hne : g' ++ rest ≠ [] := by
      intro hcontra
      rcases List.append_eq_nil.mp hcontra with ⟨_, h2⟩
      exact hrest h2
    cases hgr : g' ++ rest with
    | nil => exact absurd hgr hne
    | cons y ys =>
      rw [List.cons_append, hgr]
      rw [show mergeSpec c (b :: y :: ys) =
        (if c then b.dropLast else b) ++ mergeSpec c (y :: ys) from rfl]
      rw [← hgr, ih]
      simp [List.append_assoc]

theorem mergeSpec_dropLast (g : List (List ℚ)) (hg : g ≠ [])
    (hall : ∀ b ∈ g, b ≠ []) :
    (mergeSpec true g).dropLast = (g.map List.dropLast).flatten := by
  induction g with
  | nil => exact absurd rfl hg
  | cons b g' ih =>
    cases g' with
    | nil => simp [mergeSpec]
    | cons b' bs' =>
      rw [show mergeSpec true (b :: b' :: bs') =
        (if true then b.dropLast else b) ++ mergeSpec true (b' :: bs') from rfl]
      rw [if_pos rfl]
      rw [List.dropLast_append_of_ne_nil]
      · rw [ih (by simp) (fun x hx => hall x (by simp [hx]))]
        simp
      · exact mergeSpec_ne_nil true (b' :: bs') (by simp)
          (fun x hx => hall x (by simp [hx]))

theorem flatten_ne_nil_of_head {α} (groups : List (List α)) (hne : groups ≠ [])
    (hg : ∀ g ∈ groups, g ≠ []) : groups.flatten ≠ [] := by
  cases groups with
  | nil => exact absurd rfl hne
  | cons g gs =>
    have h1 : g ≠ [] := hg g (by simp)
    cases g with
    | nil => exact absurd rfl h1
    | cons b bs =>
      simp only [List.flatten_cons, List.cons_append]
      intro hcontra
      cases hcontra

theorem mergeSpec_grouping (c : Bool) (groups : List (List (List ℚ)))
    (hg : ∀ g ∈ groups, g ≠ []) (hb : ∀ g ∈ groups, ∀ b ∈ g, b ≠ []) :
    mergeSpec c (groups.map (mergeSpec c)) = mergeSpec c groups.flatten := by
  cases c with
  | false =>
    rw [mergeSpec_false, mergeSpec_false]
    rw [show groups.map (mergeSpec false) = groups.map List.flatten from
      List.map_congr_left (fun g _ => mergeSpec_false g)]
    exact List.flatten_flatten.symm
  | true =>
    induction groups with
    | nil => rfl
    | cons g gs ih =>
      cases gs with
      | nil => simp [mergeSpec]
      | cons g' gs' =>
        rw [List.map_cons]
        rw [show mergeSpec true (mergeSpec true g :: (g' :: gs').map (mergeSpec true)) =
          (if true then (mergeSpec true g).dropLast else mergeSpec true g) ++
            mergeSpec true ((g' :: gs').map (mergeSpec true)) from rfl]
        rw [if_pos rfl]
        rw [ih (fun x hx => hg x (by simp [hx])) (fun x hx => hb x (by simp [hx]))]
        rw [mergeSpec_dropLast g (hg g (by simp)) (hb g (by simp))]
        rw [show ((g :: g' :: gs').flatten : List (List ℚ)) = g ++ (g' ++ gs'.flatten) from by
          simp]
        rw [mergeSpec_append true g (g' ++ gs'.flatten)
          (by
            intro hc
            rcases List.append_eq_nil.mp hc with ⟨h1, _⟩
            exact (hg g' (by simp)) h1)]
        congr 1

/-- C3: node-merging the blocks of each phase and then phase-merging the
collected per-phase arrays, all with one flag, computes the same value as
one merge pass over the flattened list of all blocks with that flag, so
phase boundaries behave exactly like additional node boundaries. -/
theorem C3_node_then_phase_merge (phases : List (List (List (List ℚ)))) (c : Bool) (r : Nat)
    (hp : phases ≠ []) (hpe : ∀ p ∈ phases, p ≠ [])
    (hr : 0 < r) (hrows : ∀ p ∈ phases, ∀ b ∈ p, b.length = r)
    (hcols : ∀ p ∈ phases, ∀ b ∈ p, ∀ row ∈ b, row ≠ []) :
    merge_nodes_then_phases phases c =
      concatenate_optimization_variables (.pylist (phases.flatten.map NpArr.two)) c c true := by
  have hbne : ∀ p ∈ phases, ∀ b ∈ p, b ≠ [] := by
    intro p hpm b hbm hcontra
    have hlen := hrows p hpm b hbm
    rw [hcontra] at hlen
    simp at hlen
    omega
  have hmerge_ne : ∀ p ∈ phases, mergeSpec c (p.map (mergeSpec c)) ≠ [] := by
    intro p hpm
    apply mergeSpec_ne_nil
    · simp [hpe p hpm]
    · intro b hbm
      rcases List.mem_map.mp hbm with ⟨blk, hblk, hbe⟩
      rw [← hbe]
      exact mergeSpec_ne_nil c blk (hbne p hpm blk hblk) (hcols p hpm blk hblk)
  have hz : mapME (fun p => concatenate_optimization_variables (.pylist (p.map NpArr.two)) c c true)
        phases
      = .ok (phases.map (fun p => PyRes.arr (.one (mergeSpec c (p.map (mergeSpec c)))))) := by
    apply mapME_ok
    intro p hpm
    exact concat_vars_twos p c (hpe p hpm) (hbne p hpm) (hcols p hpm)
  unfold merge_nodes_then_phases
  rw [hz]
  dsimp only
  rw [toArrs_map_arr phases (fun p => NpArr.one (mergeSpec c (p.map (mergeSpec c))))]
  dsimp only
  have hmap : phases.map (fun p => NpArr.one (mergeSpec c (p.map (mergeSpec c)))) =
      (phases.map (fun p => mergeSpec c (p.map (mergeSpec c)))).map NpArr.one := by
    rw [List.map_map]
    rfl
  rw [hmap]
  have hlsne : phases.map (fun p => mergeSpec c (p.map (mergeSpec c))) ≠ [] := by
    simp [hp]
  have hlshead : (phases.map (fun p => mergeSpec c (p.map (mergeSpec c)))).headD [] ≠ [] := by
    cases phases with
    | nil => exact absurd rfl hp
    | cons p0 ps =>
      simp only [List.map_cons, List.headD_cons]
      exact hmerge_ne p0 (by simp)
  show concat_pylist 1 _ c c true = _
  rw [concat_pylist_ones 1 _ c c true hlshead hlsne]
  rw [concat_leaf_ones _ c hlsne]
  rw [concat_vars_twos phases.flatten c
    (flatten_ne_nil_of_head phases hp hpe)
    (by
      intro b hbm
      rcases List.mem_flatten.mp hbm with ⟨p, hpm, hbp⟩
      exact hbne p hpm b hbp)
    (by
      intro b hbm
      rcases List.mem_flatten.mp hbm with ⟨p, hpm, hbp⟩
      exact hcols p hpm b hbp)]
  have hG := mergeSpec_grouping c (phases.map (fun p => p.map (mergeSpec c)))
    (by
      intro g hgm
      rcases List.mem_map.mp hgm with ⟨p, hpm, hge⟩
      rw [← hge]
      simp [hpe p hpm])
    (by
      intro g hgm b hbm
      rcases List.mem_map.mp hgm with ⟨p, hpm, hge⟩
      rw [← hge] at hbm
      rcases List.mem_map.mp hbm with ⟨blk, hblk, hbe⟩
      rw [← hbe]
      exact mergeSpec_ne_nil c blk (hbne p hpm blk hblk) (hcols p hpm blk hblk))
  rw [List.map_map] at hG
  rw [← List.map_flatten] at hG
  have hcomp : (phases.map (mergeSpec c ∘ fun p => p.map (mergeSpec c))) =
      phases.map (fun p => mergeSpec c (p.map (mergeSpec c))) := rfl
  rw [hcomp] at hG
  rw [hG]
  rfl

/-- C3 witness: one phase of one 2 by 2 block followed by one phase of two
2 by 2 blocks merges, nodes then phases, to the same value as the single
pass over the three flattened blocks. -/
theorem C3_node_then_phase_merge_witness :
    merge_nodes_then_phases [[[[(1 : ℚ), 2], [3, 4]]], [[[5, 6], [7, 8]], [[9, 10], [11, 12]]]] true =
      concatenate_optimization_variables
        (.pylist ([[[(1 : ℚ), 2], [3, 4]], [[5, 6], [7, 8]], [[9, 10], [11, 12]]].map NpArr.two))
        true true true :=
  C3_node_then_phase_merge
    [[[[(1 : ℚ), 2], [3, 4]]], [[[5, 6], [7, 8]], [[9, 10], [11, 12]]]] true 2
    (by simp) (by simp) (by omega) (by decide) (by decide)

theorem enum_drop_flatten (c : Bool) (ls : List (List ℚ)) :
    (ls.enum.map (fun iy => if iy.1 < ls.length - 1 ∧ c = true then iy.2.dropLast else iy.2)).flatten
      = mergeSpec c ls := by
  have h := mergeSpec_enumFrom c ls 0
  simp only [Nat.zero_add] at h
  rw [← enum_eq_enumFrom_zero] at h
  exact h

theorem dropLastCol_getD (m : List (List ℚ)) (i : Nat) :
    (dropLastCol m).getD i [] = (m.getD i []).dropLast := by
  exact getD_map_default List.dropLast m i []

theorem dropLastCol_length (m : List (List ℚ)) : (dropLastCol m).length = m.length := by
  simp [dropLastCol]

theorem snd_mem_of_mem_enumFrom {α} (l : List α) :
    ∀ (n : Nat) (p : Nat × α), p ∈ List.enumFrom n l → p.2 ∈ l := by
  induction l with
  | nil => intro n p hp; simp [List.enumFrom] at hp
  | cons a l ih =>
    intro n p hp
    rw [show List.enumFrom n (a :: l) = (n, a) :: List.enumFrom (n + 1) l from rfl] at hp
    cases hp with
    | head => simp
    | tail _ hp' => simp [ih (n + 1) p hp']

theorem hstack2_drop_merge (c : Bool) (vals : List (List (List ℚ))) (r : Nat)
    (hne : vals ≠ []) (hlen : ∀ m ∈ vals, m.length = r) :
    hstack2 (vals.enum.map
        (fun iy => if iy.1 < vals.length - 1 ∧ c = true then dropLastCol iy.2 else iy.2))
      = .ok (mergeSpecRows c r vals) := by
  have hlens : ∀ mm ∈ vals.enum.map
      (fun iy => if iy.1 < vals.length - 1 ∧ c = true then dropLastCol iy.2 else iy.2),
      mm.length = r := by
    intro mm hmm
    rcases List.mem_map.mp hmm with ⟨iy, hiy, he⟩
    have hmem : iy.2 ∈ vals := snd_mem_of_mem_enumFrom vals 0 iy hiy
    rw [← he]
    by_cases hcond : iy.1 < vals.length - 1 ∧ c = true
    · rw [if_pos hcond, dropLastCol_length]
      exact hlen iy.2 hmem
    · rw [if_neg hcond]
      exact hlen iy.2 hmem
  cases hv : vals.enum.map
      (fun iy => if iy.1 < vals.length - 1 ∧ c = true then dropLastCol iy.2 else iy.2) with
  | nil =>
    exfalso
    apply hne
    have := congrArg List.length hv
    simp at this
    exact this
  | cons m0 ft =>
    have hm0 : m0.length = r := hlens m0 (by rw [hv]; simp)
    simp only [hstack2]
    rw [if_pos (by
      rw [List.all_eq_true]
      intro mm hmm
      have h1 : mm.length = r := hlens mm (by rw [hv]; exact hmm)
      rw [h1, hm0]
      simp)]
    rw [hm0]
    congr 1
    unfold mergeSpecRows
    apply List.map_congr_left
    intro i _
    rw [← hv]
    rw [List.map_map]
    have hmaps : (vals.enum.map
          ((fun mm => mm.getD i []) ∘
            fun iy => if iy.1 < vals.length - 1 ∧ c = true then dropLastCol iy.2 else iy.2))
        = ((vals.map (fun b => b.getD i [])).enum.map
            (fun jy => if jy.1 < (vals.map (fun b => b.getD i [])).length - 1 ∧ c = true then
              jy.2.dropLast else jy.2)) := by
      rw [List.enum_map, List.map_map]
      apply List.map_congr_left
      intro iy _
      rcases iy with ⟨j, b⟩
      simp only [Function.comp_apply, Prod.map_apply, id_eq, List.length_map]
      by_cases hcond : j < vals.length - 1 ∧ c = true
      · rw [if_pos hcond, if_pos hcond, dropLastCol_getD]
      · rw [if_neg hcond, if_neg hcond]
    rw [hmaps]
    exact enum_drop_flatten c (vals.map (fun b => b.getD i []))

theorem dict_lookup_ok (d : VarDict) (k : String)
    (h : (d.find? (fun e => e.1 = k)).isSome = true) :
    dict_lookup d k = .ok (lookupD d k) := by
  unfold dict_lookup lookupD
  cases hf : d.find? (fun e => e.1 = k) with
  | none => rw [hf] at h; cases h
  | some e => rfl

/-- C9: over a non-empty list of dictionaries whose entries cover the keys
of the first dictionary with matching row counts, the dictionary merge
succeeds, its key list is exactly the key list of the first dictionary in
order, and the block under each key is the column-dropping merge of that
key's per-phase blocks, wrapped in a one-element list. -/
theorem C9_dict_merge_per_key (c : Bool) (d0 : VarDict) (rest : List VarDict)
    (hkeys : ∀ kv ∈ d0, ∀ d ∈ d0 :: rest, (d.find? (fun e => e.1 = kv.1)).isSome = true)
    (hrows : ∀ kv ∈ d0, ∀ d ∈ d0 :: rest,
      (lookupD d kv.1).length = (lookupD d0 kv.1).length) :
    concatenate_optimization_variables_dict (.pylist ((d0 :: rest).map DictElem.dict)) c =
      .ok (some [d0.map (fun kv =>
        (kv.1, mergeSpecRows c (lookupD d0 kv.1).length
          ((d0 :: rest).map (fun d => lookupD d kv.1))))]) := by
  simp only [List.map_cons]
  simp only [concatenate_optimization_variables_dict]
  have hF := mapME_ok
    (fun kv : String × List (List ℚ) =>
      match mapME (fun e => elem_lookup e kv.1) (DictElem.dict d0 :: rest.map DictElem.dict) with
      | .error e => .error e
      | .ok vals =>
        match hstack2 (vals.enum.map
            (fun iy => if iy.1 < vals.length - 1 ∧ c = true then dropLastCol iy.2 else iy.2)) with
        | .error e => .error e
        | .ok h => .ok (kv.1, h))
    (fun kv => (kv.1, mergeSpecRows c (lookupD d0 kv.1).length
      ((d0 :: rest).map (fun d => lookupD d kv.1))))
    d0
    (by
      intro kv hkv
      have hvals : mapME (fun e => elem_lookup e kv.1)
            (DictElem.dict d0 :: rest.map DictElem.dict)
          = .ok ((d0 :: rest).map (fun d => lookupD d kv.1)) := by
        rw [show DictElem.dict d0 :: rest.map DictElem.dict =
          (d0 :: rest).map DictElem.dict from by simp]
        rw [mapME_comp_map]
        apply mapME_ok
        intro d hd
        exact dict_lookup_ok d kv.1 (hkeys kv hkv d hd)
      dsimp only
      rw [hvals]
      dsimp only
      rw [hstack2_drop_merge c ((d0 :: rest).map (fun d => lookupD d kv.1))
        (lookupD d0 kv.1).length
        (by simp)
        (by
          intro m hm
          rcases List.mem_map.mp hm with ⟨d, hd, he⟩
          rw [← he]
          exact hrows kv hkv d hd)])
  rw [hF]
  dsimp only
  simp only [List.map_cons]

/-- C9 witness: two dictionaries with key q and 2 by 2 blocks merge into the
column-dropping concatenation under the same key list. -/
theorem C9_dict_merge_per_key_witness :
    concatenate_optimization_variables_dict
        (.pylist (([[("q", [[(1 : ℚ), 2], [3, 4]])], [("q", [[5, 6], [7, 8]])]]).map DictElem.dict))
        true
      = .ok (some [[("q", [[(1 : ℚ), 5, 6], [3, 7, 8]])]]) := by
  rw [C9_dict_merge_per_key true [("q", [[(1 : ℚ), 2], [3, 4]])] [[("q", [[5, 6], [7, 8]])]]
    (by decide) (by decide)]
  rfl

/-- C10: a non-list argument raises the list error; a non-empty list whose
first element is not a dictionary returns None with no error and no merged
data; and any successful result is the merged dictionary wrapped in a
one-element list. -/
theorem C10_dict_input_shapes :
    (∀ c : Bool,
      concatenate_optimization_variables_dict .notAList c = .error "the input must be a list")
    ∧ (∀ (c : Bool) (rest : List DictElem),
      concatenate_optimization_variables_dict (.pylist (DictElem.nondict :: rest)) c = .ok none)
    ∧ (∀ (v : PyDictInput) (c : Bool) (r : List VarDict),
      concatenate_optimization_variables_dict v c = .ok (some r) → ∃ d, r = [d]) := by
  refine ⟨fun c => rfl, fun c rest => rfl, ?_⟩
  intro v c r h
  cases v with
  | notAList => cases h
  | pylist elems =>
    cases elems with
    | nil => cases h
    | cons e0 rest =>
      cases e0 with
      | nondict =>
        simp only [concatenate_optimization_variables_dict] at h
        simp at h
      | dict d0 =>
        simp only [concatenate_optimization_variables_dict] at h
        split at h
        · cases h
        · rename_i merged hmerged
          refine ⟨merged, ?_⟩
          have := (Except.ok.injEq _ _).mp h
          have h2 := (Option.some.injEq _ _).mp this
          exact h2.symm

/-- C10 witness: the error on a non-list, the None on a list headed by a
non-dictionary, and a successful single-dictionary merge wrapped in a
one-element list. -/
theorem C10_dict_input_shapes_witness :
    concatenate_optimization_variables_dict .notAList true = .error "the input must be a list"
    ∧ concatenate_optimization_variables_dict (.pylist [DictElem.nondict]) true = .ok none
    ∧ ∃ d, ([[("q", [[(1 : ℚ)]])]] : List VarDict) = [d] := by
  refine ⟨C10_dict_input_shapes.1 true, C10_dict_input_shapes.2.1 true [], ?_⟩
  exact C10_dict_input_shapes.2.2
    (.pylist [DictElem.dict [("q", [[(1 : ℚ)]])]]) true [[("q", [[(1 : ℚ)]])]] rfl
